import Mathlib

/-!
Verification of the subsampling/simplification engine of `syntheticdata.py`.

The script reduces an ordered list of 2-D points (easting, northing) with a
family of algorithms, aggregates the reduced curves into per-algorithm layer
collections, and persists each collection while profiling the write.

Shallow embedding conventions:
* Python lists of coordinate pairs become `List (K × K)` for a linear ordered
  field `K` (instantiated at `ℚ` for concrete evaluation, at `ℝ` for the
  sine-trajectory development), or a polymorphic `List α` for the algorithms
  that never inspect coordinate values.
* Python calls that can raise (`ValueError` from a zero slice/range step or a
  negative sample size, `ZeroDivisionError` from a zero grid size) are
  embedded as `Except PyErr`.
* The randomness consumed by `random.sample` is passed explicitly as the list
  of drawn indices, in draw order.
* The external `rdp` and Visvalingam–Whyatt libraries and the tsmoothie
  Lowess smoother are not part of the repository source; where a claim needs
  them they are modelled from the spec (marked in their doc comments).
-/

namespace SyntheticData

/-- Python runtime errors reachable from the subsampling entry points:
`ValueError` (zero slice step, zero `range` step, negative sample size) and
`ZeroDivisionError` (zero grid size). -/
inductive PyErr where
  | valueError
  | zeroDivisionError
deriving DecidableEq

deriving instance DecidableEq for Except

/-- Every `n`-th element of a list starting at index 0: the meaning of the
Python slice `coords[::n]` for a positive step `n` (and, applied to the
reversed list, for a negative step of magnitude `n`). -/
def everyNth (l : List α) (n : ℕ) : List α :=
  match l with
  | [] => []
  | x :: xs => x :: everyNth (xs.drop (n - 1)) n
termination_by l.length
decreasing_by
  simp only [List.length_drop, List.length_cons]
  omega

/-- `uniform_subsampling(coords, step)` from `syntheticdata.py`:
`return coords[::step]`.  A zero step raises `ValueError`; a positive step
selects indices `0, step, 2·step, …`; a negative step walks the list
backwards with stride `|step|`. -/
def uniform_subsampling (coords : List α) (step : ℤ) : Except PyErr (List α) :=
  if step = 0 then .error .valueError
  else if 0 < step then .ok (everyNth coords step.toNat)
  else .ok (everyNth coords.reverse step.natAbs)

/-- `random_subsampling(coords, n_out)` from `syntheticdata.py`:
`return random.sample(coords, min(n_out, len(coords)))`.
`pick` is the sequence of indices drawn by `random.sample`, in draw order
(the library returns the selected elements in that order, without any
re-sorting).  A negative sample size raises `ValueError`. -/
def random_subsampling (pick : List ℕ) (coords : List α) (n_out : ℤ) :
    Except PyErr (List α) :=
  let k : ℤ := min n_out (coords.length : ℤ)
  if k < 0 then .error .valueError
  else .ok ((pick.take k.toNat).filterMap fun i => coords.get? i)

/-- One pass of `sliding_window_subsampling`'s loop for a positive window
width `w`: take the current window `coords[i : i+w]`, keep its middle element
`window[len(window) // 2]`, advance by `w`. -/
def slidingPos (w : ℕ) (l : List α) : List α :=
  match l with
  | [] => []
  | x :: xs =>
      (x :: xs.take (w - 1)).get
        ⟨(x :: xs.take (w - 1)).length / 2,
         Nat.div_lt_self (Nat.succ_pos _) one_lt_two⟩ ::
      slidingPos w (xs.drop (w - 1))
termination_by l.length
decreasing_by
  simp only [List.length_drop, List.length_cons]
  omega

/-- `sliding_window_subsampling(coords, window_size)` from `syntheticdata.py`.
The loop `for i in range(0, len(coords), window_size)` raises `ValueError`
for a zero step, runs zero iterations for a negative step (returning `[]`),
and otherwise keeps the middle point of each consecutive window. -/
def sliding_window_subsampling (coords : List α) (w : ℤ) :
    Except PyErr (List α) :=
  if w = 0 then .error .valueError
  else if 0 < w then .ok (slidingPos w.toNat coords)
  else .ok []

section Field

variable {K : Type} [LinearOrderedField K] [FloorRing K]

/-- The grid cell key of `grid_subsampling`:
`(round(coord[0] / grid_size) * grid_size, round(coord[1] / grid_size) * grid_size)`. -/
def gridKey (g : K) (c : K × K) : K × K :=
  (round (c.1 / g) * g, round (c.2 / g) * g)

/-- The dictionary-filling loop of `grid_subsampling`: walk the coordinates,
insert `(grid_key, coord)` for every key not seen before (first-seen-wins;
insertion order preserved, matching a Python `dict`). -/
def gridFold (g : K) : List (K × K) → List ((K × K) × (K × K)) →
    List ((K × K) × (K × K))
  | [], acc => acc
  | c :: rest, acc =>
      if acc.any fun kv => decide (kv.1 = gridKey g c) then
        gridFold g rest acc
      else
        gridFold g rest (acc ++ [(gridKey g c, c)])

/-- `grid_subsampling(coords, grid_size)` from `syntheticdata.py`.  Dividing
by a zero grid size raises `ZeroDivisionError` as soon as the first
coordinate is processed (an empty input returns `[]` untouched). -/
def grid_subsampling (coords : List (K × K)) (g : K) :
    Except PyErr (List (K × K)) :=
  match coords with
  | [] => .ok []
  | _ =>
      if g = 0 then .error .zeroDivisionError
      else .ok ((gridFold g coords []).map Prod.snd)

/-- `lowess_subsampling(coords, frac)` from `syntheticdata.py`: extract the
x and y columns, smooth the y column with the external tsmoothie Lowess
smoother (passed here as the function `smoother`), and zip the original x
values with the smoothed y values. -/
def lowess_subsampling (smoother : K → List K → List K)
    (coords : List (K × K)) (frac : K) : List (K × K) :=
  List.zip (coords.map Prod.fst) (smoother frac (coords.map Prod.snd))

end Field

/-! ### Lemmas about `everyNth` (uniform-stride subsampling) -/

theorem everyNth_nil (n : ℕ) : everyNth ([] : List α) n = [] := by
  simp [everyNth]

theorem everyNth_cons (x : α) (xs : List α) (n : ℕ) :
    everyNth (x :: xs) n = x :: everyNth (xs.drop (n - 1)) n := by
  rw [everyNth]

theorem everyNth_one (l : List α) : everyNth l 1 = l := by
  induction l with
  | nil => simp [everyNth]
  | cons x xs ih => rw [everyNth_cons]; simpa using ih

/-- Pointwise description of the uniform stride: the `i`-th retained point is
the input point at index `i * n`. -/
theorem everyNth_get? (n : ℕ) (hn : 1 ≤ n) :
    ∀ (l : List α) (i : ℕ), (everyNth l n).get? i = l.get? (i * n) := by
  have main : ∀ (m : ℕ) (l : List α), l.length ≤ m → ∀ i : ℕ,
      (everyNth l n).get? i = l.get? (i * n) := by
    intro m
    induction m with
    | zero =>
        intro l hl i
        have : l = [] := List.length_eq_zero.mp (Nat.le_zero.mp hl)
        subst this
        simp [everyNth]
    | succ m ih =>
        intro l hl i
        match l with
        | [] => simp [everyNth]
        | x :: xs =>
            rw [everyNth_cons]
            match i with
            | 0 => simp
            | i + 1 =>
                have hlen : (xs.drop (n - 1)).length ≤ m := by
                  simp only [List.length_drop]
                  simp only [List.length_cons] at hl
                  omega
                rw [List.get?_cons_succ, ih _ hlen i, List.get?_drop]
                have harith : n - 1 + i * n = i * n + n - 1 := by omega
                rw [harith]
                have : (x :: xs).get? ((i + 1) * n) = xs.get? ((i + 1) * n - 1) := by
                  have hpos : 0 < (i + 1) * n := by positivity
                  match he : (i + 1) * n, hpos with
                  | j + 1, _ => simp
                rw [this]
                congr 1
                have hmul : (i + 1) * n = i * n + n := by ring
                omega
  intro l i
  exact main l.length l le_rfl i

/-- CLAIM C7: for every input list `P` and every positive step `N`,
uniform-stride subsampling succeeds and returns exactly the points of `P` at
indices `0, N, 2N, …` in their original order, and with step `1` it returns
the input unchanged. -/
theorem claim7_uniform_stride (l : List (ℚ × ℚ)) (N : ℤ) (hN : 0 < N) :
    uniform_subsampling l N = Except.ok (everyNth l N.toNat) ∧
    (∀ i : ℕ, (everyNth l N.toNat).get? i = l.get? (i * N.toNat)) ∧
    uniform_subsampling l 1 = Except.ok l := by
  refine ⟨?_, ?_, ?_⟩
  · unfold uniform_subsampling
    rw [if_neg (by omega), if_pos hN]
  · intro i
    exact everyNth_get? N.toNat (by omega) l i
  · unfold uniform_subsampling
    norm_num
    exact everyNth_one l

theorem claim7_witness :
    uniform_subsampling [((0 : ℚ), (0 : ℚ)), (1, 1), (2, 2), (3, 3), (4, 4)] 2 =
      Except.ok (everyNth [((0 : ℚ), (0 : ℚ)), (1, 1), (2, 2), (3, 3), (4, 4)] (2 : ℤ).toNat) ∧
    (∀ i : ℕ,
      (everyNth [((0 : ℚ), (0 : ℚ)), (1, 1), (2, 2), (3, 3), (4, 4)] (2 : ℤ).toNat).get? i =
        [((0 : ℚ), (0 : ℚ)), (1, 1), (2, 2), (3, 3), (4, 4)].get? (i * (2 : ℤ).toNat)) ∧
    uniform_subsampling [((0 : ℚ), (0 : ℚ)), (1, 1), (2, 2), (3, 3), (4, 4)] 1 =
      Except.ok [((0 : ℚ), (0 : ℚ)), (1, 1), (2, 2), (3, 3), (4, 4)] :=
  claim7_uniform_stride [((0 : ℚ), (0 : ℚ)), (1, 1), (2, 2), (3, 3), (4, 4)] 2 (by decide)

/-! ### Lemmas about `slidingPos` (sliding-window subsampling) -/

theorem slidingPos_nil (w : ℕ) : slidingPos w ([] : List α) = [] := by
  simp [slidingPos]

theorem slidingPos_cons (w : ℕ) (x : α) (xs : List α) :
    slidingPos w (x :: xs) =
      (x :: xs.take (w - 1)).get
        ⟨(x :: xs.take (w - 1)).length / 2,
         Nat.div_lt_self (Nat.succ_pos _) one_lt_two⟩ ::
      slidingPos w (xs.drop (w - 1)) := by
  rw [slidingPos]

theorem take_cons_of_pos (w : ℕ) (hw : 1 ≤ w) (x : α) (xs : List α) :
    (x :: xs).take w = x :: xs.take (w - 1) := by
  match w, hw with
  | w + 1, _ => simp

/-- Sliding-window output length is `⌈len / w⌉`, computed as
`(len + w - 1) / w` in natural division. -/
theorem slidingPos_length (w : ℕ) (hw : 1 ≤ w) :
    ∀ l : List α, (slidingPos w l).length = (l.length + w - 1) / w := by
  have main : ∀ (m : ℕ) (l : List α), l.length ≤ m →
      (slidingPos w l).length = (l.length + w - 1) / w := by
    intro m
    induction m with
    | zero =>
        intro l hl
        have : l = [] := List.length_eq_zero.mp (Nat.le_zero.mp hl)
        subst this
        simp only [slidingPos_nil, List.length_nil]
        rw [Nat.div_eq_of_lt (by omega)]
    | succ m ih =>
        intro l hl
        match l with
        | [] =>
            simp only [slidingPos_nil, List.length_nil]
            rw [Nat.div_eq_of_lt (by omega)]
        | x :: xs =>
            rw [slidingPos_cons]
            have hlen : (xs.drop (w - 1)).length ≤ m := by
              simp only [List.length_drop]
              simp only [List.length_cons] at hl
              omega
            simp only [List.length_cons, ih _ hlen, List.length_drop]
            by_cases hcase : w ≤ xs.length + 1
            · have h1 : xs.length - (w - 1) + w - 1 = xs.length := by omega
              rw [h1]
              have h2 : xs.length + 1 + w - 1 = xs.length + w := by omega
              rw [h2, Nat.add_div_right _ (by omega)]
            · have h1 : xs.length - (w - 1) = 0 := by omega
              rw [h1]
              rw [Nat.div_eq_of_lt (by omega)]
              have h2 : (xs.length + 1 + w - 1) / w = 1 :=
                Nat.div_eq_of_lt_le (by omega) (by omega)
              omega
  intro l
  exact main l.length l le_rfl

/-- Pointwise description of the sliding window: the `j`-th output element is
the middle element of the `j`-th window `l[j*w : j*w + w]`. -/
theorem slidingPos_get? (w : ℕ) (hw : 1 ≤ w) :
    ∀ (l : List α) (j : ℕ), (slidingPos w l).get? j =
      ((l.drop (j * w)).take w).get? (((l.drop (j * w)).take w).length / 2) := by
  have main : ∀ (m : ℕ) (l : List α), l.length ≤ m → ∀ j : ℕ,
      (slidingPos w l).get? j =
        ((l.drop (j * w)).take w).get? (((l.drop (j * w)).take w).length / 2) := by
    intro m
    induction m with
    | zero =>
        intro l hl j
        have : l = [] := List.length_eq_zero.mp (Nat.le_zero.mp hl)
        subst this
        simp [slidingPos_nil]
    | succ m ih =>
        intro l hl j
        match l with
        | [] => simp [slidingPos_nil]
        | x :: xs =>
            rw [slidingPos_cons]
            match j with
            | 0 =>
                simp only [Nat.zero_mul, List.drop_zero, List.get?_cons_zero]
                rw [take_cons_of_pos w hw]
                exact (List.get?_eq_get _).symm
            | j + 1 =>
                have hlen : (xs.drop (w - 1)).length ≤ m := by
                  simp only [List.length_drop]
                  simp only [List.length_cons] at hl
                  omega
                rw [List.get?_cons_succ, ih _ hlen j]
                have hdr : (xs.drop (w - 1)).drop (j * w) = (x :: xs).drop ((j + 1) * w) := by
                  rw [List.drop_drop]
                  have h1 : (j + 1) * w = (j * w + (w - 1)) + 1 := by
                    have : (j + 1) * w = j * w + w := by ring
                    omega
                  rw [h1, List.drop_succ_cons]
                  congr 1
                  omega
                rw [hdr]
  intro l j
  exact main l.length l le_rfl j

/-- CLAIM C8: for every input list `P` and positive window width `W`,
sliding-window subsampling succeeds, keeps the point at each consecutive
window's middle index, and returns exactly `⌈len(P) / W⌉` points. -/
theorem claim8_sliding_window (l : List (ℚ × ℚ)) (W : ℤ) (hW : 0 < W) :
    sliding_window_subsampling l W = Except.ok (slidingPos W.toNat l) ∧
    (slidingPos W.toNat l).length = (l.length + W.toNat - 1) / W.toNat ∧
    ∀ j : ℕ, (slidingPos W.toNat l).get? j =
      ((l.drop (j * W.toNat)).take W.toNat).get?
        (((l.drop (j * W.toNat)).take W.toNat).length / 2) := by
  refine ⟨?_, ?_, ?_⟩
  · unfold sliding_window_subsampling
    rw [if_neg (by omega), if_pos hW]
  · exact slidingPos_length W.toNat (by omega) l
  · exact slidingPos_get? W.toNat (by omega) l

theorem claim8_witness :
    sliding_window_subsampling [((0 : ℚ), (0 : ℚ)), (1, 1), (2, 2), (3, 3), (4, 4)] 2 =
      Except.ok (slidingPos (2 : ℤ).toNat [((0 : ℚ), (0 : ℚ)), (1, 1), (2, 2), (3, 3), (4, 4)]) ∧
    (slidingPos (2 : ℤ).toNat [((0 : ℚ), (0 : ℚ)), (1, 1), (2, 2), (3, 3), (4, 4)]).length =
      ([((0 : ℚ), (0 : ℚ)), (1, 1), (2, 2), (3, 3), (4, 4)].length + (2 : ℤ).toNat - 1) / (2 : ℤ).toNat ∧
    ∀ j : ℕ,
      (slidingPos (2 : ℤ).toNat [((0 : ℚ), (0 : ℚ)), (1, 1), (2, 2), (3, 3), (4, 4)]).get? j =
        (([((0 : ℚ), (0 : ℚ)), (1, 1), (2, 2), (3, 3), (4, 4)].drop (j * (2 : ℤ).toNat)).take (2 : ℤ).toNat).get?
          ((([((0 : ℚ), (0 : ℚ)), (1, 1), (2, 2), (3, 3), (4, 4)].drop (j * (2 : ℤ).toNat)).take (2 : ℤ).toNat).length / 2) :=
  claim8_sliding_window [((0 : ℚ), (0 : ℚ)), (1, 1), (2, 2), (3, 3), (4, 4)] 2 (by decide)

/-! ### Level validation (claim C3) and random-sample ordering (claim C1) -/

/-- CLAIM C3 counterexample: a level `≤ 0` is not rejected with a validation
error — uniform-stride subsampling with step `-1` succeeds and returns the
reversed input (the Python slice `coords[::-1]`). -/
theorem claim3_counterexample :
    uniform_subsampling [((0 : ℚ), (0 : ℚ)), (1, 1)] (-1) =
      Except.ok [(1, 1), (0, 0)] := by
  show uniform_subsampling [((0 : ℚ), (0 : ℚ)), (1, 1)] (-1) =
      Except.ok [((0 : ℚ), (0 : ℚ)), (1, 1)].reverse
  unfold uniform_subsampling
  rw [if_neg (by omega), if_neg (by omega)]
  rw [show ((-1 : ℤ)).natAbs = 1 from rfl, everyNth_one]

/-- CLAIM C3 (amended): the algorithms perform no level validation at all.
A level `≤ 0` is not rejected before computation: uniform stride with step
`-1` returns the reversed input, a negative window width makes the
sliding-window loop run zero iterations and return `[]`, random sampling
with level `0` returns `[]` and with a negative level raises an uncontrolled
`ValueError`, and level `0` raises an uncontrolled `ValueError` /
`ZeroDivisionError` at computation time for the slicing, windowing and grid
algorithms. -/
theorem claim3_amended (l : List (ℚ × ℚ)) (pick : List ℕ) (w : ℤ) (hw : w < 0) :
    uniform_subsampling l (-1) = Except.ok l.reverse ∧
    uniform_subsampling l 0 = Except.error PyErr.valueError ∧
    sliding_window_subsampling l 0 = Except.error PyErr.valueError ∧
    sliding_window_subsampling l w = Except.ok [] ∧
    (l ≠ [] → grid_subsampling l (0 : ℚ) = Except.error PyErr.zeroDivisionError) ∧
    random_subsampling pick l 0 = Except.ok [] ∧
    random_subsampling pick l (-1) = Except.error PyErr.valueError := by
  refine ⟨?_, ?_, ?_, ?_, ?_, ?_, ?_⟩
  · unfold uniform_subsampling
    rw [if_neg (by omega), if_neg (by omega)]
    rw [show ((-1 : ℤ)).natAbs = 1 from rfl, everyNth_one]
  · unfold uniform_subsampling
    rw [if_pos rfl]
  · unfold sliding_window_subsampling
    rw [if_pos rfl]
  · unfold sliding_window_subsampling
    rw [if_neg (by omega), if_neg (by omega)]
  · intro hne
    match l, hne with
    | c :: rest, _ =>
        unfold grid_subsampling
        rw [if_pos rfl]
  · unfold random_subsampling
    rw [if_neg (by omega)]
    simp
  · unfold random_subsampling
    rw [if_pos (by omega)]

theorem claim3_witness :
    uniform_subsampling [((5 : ℚ), (6 : ℚ))] (-1) = Except.ok [((5 : ℚ), (6 : ℚ))].reverse ∧
    uniform_subsampling [((5 : ℚ), (6 : ℚ))] 0 = Except.error PyErr.valueError ∧
    sliding_window_subsampling [((5 : ℚ), (6 : ℚ))] 0 = Except.error PyErr.valueError ∧
    sliding_window_subsampling [((5 : ℚ), (6 : ℚ))] (-2) = Except.ok [] ∧
    ([((5 : ℚ), (6 : ℚ))] ≠ [] →
      grid_subsampling [((5 : ℚ), (6 : ℚ))] (0 : ℚ) = Except.error PyErr.zeroDivisionError) ∧
    random_subsampling [0] [((5 : ℚ), (6 : ℚ))] 0 = Except.ok [] ∧
    random_subsampling [0] [((5 : ℚ), (6 : ℚ))] (-1) = Except.error PyErr.valueError :=
  claim3_amended [((5 : ℚ), (6 : ℚ))] [0] (-2) (by decide)

/-- CLAIM C1: evaluation of `random_subsampling` at a failing input.  With
input points `(0,0), (1,1), (2,2)`, requested count `2`, and the random draw
picking index `2` first and index `0` second, the code returns the sampled
points in draw order `[(2,2), (0,0)]` — it does not re-sort by original
index, so the output is not increasing in original input index (the claimed
behaviour would require `[(0,0), (2,2)]`). -/
theorem claim1_random_not_resorted :
    random_subsampling [2, 0] [((0 : ℚ), (0 : ℚ)), (1, 1), (2, 2)] 2 =
      Except.ok [(2, 2), (0, 0)] ∧
    (Except.ok [((2 : ℚ), (2 : ℚ)), (0, 0)] : Except PyErr (List (ℚ × ℚ))) ≠
      Except.ok [((0 : ℚ), (0 : ℚ)), (2, 2)] :=
  ⟨by decide, by decide⟩

/-! ### The profiled write loop of `process_data` (claim C2) -/

/-- One row of the profiling report built by `process_data`:
`{method, peak_memory_usage_mb, duration_sec, file_size_mb}`.  The record has
no failure field of any kind. -/
structure ProfilingRecord where
  method : String
  peak_memory_usage_mb : ℚ
  duration_sec : ℚ
  file_size_mb : ℚ
deriving DecidableEq

/-- The final loop of `process_data`: for each method layer in order, perform
the profiled `to_file_wrapper` write and append its `ProfilingRecord`.  The
loop body contains no exception handling, so a raising write aborts the loop
and propagates (modelled by `Except`): no record is produced for the failing
layer and the remaining layers are never processed. -/
def writeLayers (write : String → Except String ProfilingRecord) :
    List String → Except String (List ProfilingRecord)
  | [] => .ok []
  | m :: rest =>
      match write m with
      | .error e => .error e
      | .ok r =>
          match writeLayers write rest with
          | .error e => .error e
          | .ok rs => .ok (r :: rs)

/-- A destination that raises on the `rdp` layer and succeeds elsewhere. -/
def failOnRdp : String → Except String ProfilingRecord := fun m =>
  if m = "rdp_synthetic_layer" then .error "invalid geometry"
  else .ok ⟨m, 0, 0, 0⟩

/-- CLAIM C2 counterexample: when the persistence call for the first layer
throws, `process_data` does not produce any `ProfilingRecord` list at all —
the write loop aborts with the propagated exception, so no failure-marked
record exists and the next layer is never written. -/
theorem claim2_counterexample :
    (writeLayers failOnRdp ["rdp_synthetic_layer", "uniform_synthetic_layer"]).isOk
      = false := by
  rfl

/-- CLAIM C2 (amended): if the persistence call for a layer throws, the
exception propagates out of the write loop of `process_data`: the result is
the raised error itself, no `ProfilingRecord` is produced for that layer, and
none of the remaining layers are processed. -/
theorem claim2_amended (write : String → Except String ProfilingRecord)
    (m : String) (ms : List String) (e : String) (h : write m = Except.error e) :
    writeLayers write (m :: ms) = Except.error e := by
  unfold writeLayers
  rw [h]

theorem claim2_witness :
    writeLayers failOnRdp ("rdp_synthetic_layer" :: ["uniform_synthetic_layer"]) =
      Except.error "invalid geometry" :=
  claim2_amended failOnRdp "rdp_synthetic_layer" ["uniform_synthetic_layer"]
    "invalid geometry" rfl

/-! ### The per-level aggregation of `process_data` (claim C5) -/

/-- A geometry held in one of the per-method GeoDataFrames of
`process_data`: either a `LineString` built from a subsampled curve or the
`MultiPoint` full-resolution baseline. -/
inductive Geometry (P : Type) where
  | line (pts : List P)
  | multiPoint (pts : List P)
deriving DecidableEq

/-- The per-method level loop of `process_data`: for each level in the
caller-supplied order, run the algorithm and append a `LineString` geometry
to the method's collection — but only when the output has more than one
point (`if len(subsampled_coords) > 1`). -/
def buildMethodLayers {P : Type} (simplify : List P → ℚ → List P)
    (coords : List P) (levels : List ℚ) : List (Geometry P) :=
  levels.filterMap fun lv =>
    if 1 < (simplify coords lv).length then
      some (Geometry.line (simplify coords lv))
    else none

/-- The full-resolution baseline of `process_data`: a single `MultiPoint`
geometry built from the untouched coordinate list. -/
def fullLayer {P : Type} (coords : List P) : List (Geometry P) :=
  [Geometry.multiPoint coords]

/-- The levels whose algorithm output is degenerate (fewer than 2 points)
and is therefore skipped by `process_data`'s `len(...) > 1` guard. -/
def degenerateLevels {P : Type} (simplify : List P → ℚ → List P)
    (coords : List P) (levels : List ℚ) : List ℚ :=
  levels.filter fun lv => decide ((simplify coords lv).length ≤ 1)

theorem buildMethodLayers_length_add {P : Type}
    (simplify : List P → ℚ → List P) (coords : List P) :
    ∀ levels : List ℚ,
      (buildMethodLayers simplify coords levels).length +
        (degenerateLevels simplify coords levels).length = levels.length := by
  intro levels
  induction levels with
  | nil => simp [buildMethodLayers, degenerateLevels]
  | cons lv rest ih =>
      simp only [buildMethodLayers, degenerateLevels] at ih ⊢
      rw [List.filterMap_cons, List.filter_cons]
      by_cases h : 1 < (simplify coords lv).length
      · rw [if_pos h]
        have hd : ¬ (decide ((simplify coords lv).length ≤ 1) = true) := by
          simp
          omega
        rw [if_neg hd]
        simp only [List.length_cons]
        omega
      · rw [if_neg h]
        have hd : decide ((simplify coords lv).length ≤ 1) = true := by
          simp
          omega
        rw [if_pos hd]
        simp only [List.length_cons]
        omega

/-- CLAIM C5: aggregating one trajectory over the level list
`[10, 100, 1000]` yields, per algorithm, exactly `3` line geometries minus
the degenerate skips (levels whose output has fewer than 2 points), plus
exactly one full-resolution baseline collection holding the untouched
trajectory as a multi-point set. -/
theorem claim5_aggregator {P : Type} (simplify : List P → ℚ → List P)
    (coords : List P) :
    (buildMethodLayers simplify coords [10, 100, 1000]).length =
      3 - (degenerateLevels simplify coords [10, 100, 1000]).length ∧
    (degenerateLevels simplify coords [10, 100, 1000]).length ≤ 3 ∧
    fullLayer coords = [Geometry.multiPoint coords] ∧
    (fullLayer coords).length = 1 := by
  have h := buildMethodLayers_length_add simplify coords [10, 100, 1000]
  simp only [List.length_cons, List.length_nil] at h
  exact ⟨by omega, by omega, rfl, rfl⟩

/-! ### Non-emptiness and head preservation (claim C10) -/

theorem gridFold_prefix {K : Type} [LinearOrderedField K] [FloorRing K]
    (g : K) : ∀ (l : List (K × K)) (acc : List ((K × K) × (K × K))),
      ∃ rest, gridFold g l acc = acc ++ rest := by
  intro l
  induction l with
  | nil => intro acc; exact ⟨[], by simp [gridFold]⟩
  | cons c cs ih =>
      intro acc
      by_cases h : acc.any fun kv => decide (kv.1 = gridKey g c)
      · obtain ⟨rest, hrest⟩ := ih acc
        exact ⟨rest, by rw [gridFold, if_pos h, hrest]⟩
      · obtain ⟨rest, hrest⟩ := ih (acc ++ [(gridKey g c, c)])
        refine ⟨(gridKey g c, c) :: rest, ?_⟩
        rw [gridFold, if_neg h, hrest]
        simp

/-- CLAIM C10: for every non-empty input and positive level, uniform-stride,
sliding-window and grid subsampling each return a non-empty output, and the
first element of the uniform and of the grid output is exactly the first
input point. -/
theorem claim10_invariants (l : List (ℚ × ℚ)) (hne : l ≠ [])
    (step w : ℤ) (g : ℚ) (hs : 0 < step) (hw : 0 < w) (hg : 0 < g) :
    (∃ out, uniform_subsampling l step = Except.ok out ∧ out ≠ [] ∧
      out.head? = l.head?) ∧
    (∃ out, sliding_window_subsampling l w = Except.ok out ∧ out ≠ []) ∧
    (∃ out, grid_subsampling l g = Except.ok out ∧ out ≠ [] ∧
      out.head? = l.head?) := by
  match l, hne with
  | c :: cs, _ =>
      refine ⟨⟨everyNth (c :: cs) step.toNat, ?_, ?_, ?_⟩,
              ⟨slidingPos w.toNat (c :: cs), ?_, ?_⟩, ?_⟩
      · unfold uniform_subsampling
        rw [if_neg (by omega), if_pos hs]
      · rw [everyNth_cons]; simp
      · rw [everyNth_cons]; simp
      · unfold sliding_window_subsampling
        rw [if_neg (by omega), if_pos hw]
      · rw [slidingPos_cons]; simp
      · refine ⟨(gridFold g (c :: cs) []).map Prod.snd, ?_, ?_, ?_⟩
        · unfold grid_subsampling
          rw [if_neg hg.ne']
        · rw [gridFold, if_neg (by simp)]
          simp only [List.nil_append]
          obtain ⟨rest, hrest⟩ := gridFold_prefix g cs [(gridKey g c, c)]
          rw [hrest]
          simp
        · rw [gridFold, if_neg (by simp)]
          simp only [List.nil_append]
          obtain ⟨rest, hrest⟩ := gridFold_prefix g cs [(gridKey g c, c)]
          rw [hrest]
          simp

theorem claim10_witness :
    (∃ out, uniform_subsampling [((3 : ℚ), (4 : ℚ))] 2 = Except.ok out ∧
      out ≠ [] ∧ out.head? = [((3 : ℚ), (4 : ℚ))].head?) ∧
    (∃ out, sliding_window_subsampling [((3 : ℚ), (4 : ℚ))] 2 = Except.ok out ∧
      out ≠ []) ∧
    (∃ out, grid_subsampling [((3 : ℚ), (4 : ℚ))] 2 = Except.ok out ∧
      out ≠ [] ∧ out.head? = [((3 : ℚ), (4 : ℚ))].head?) :=
  claim10_invariants [((3 : ℚ), (4 : ℚ))] (by decide) 2 2 2
    (by decide) (by decide) (by decide)

/-! ### Ramer–Douglas–Peucker (claims C6, C4, C9)

`process_data` calls `rdp(coords, epsilon=level)` from the external `rdp`
library, which is not part of this repository.  The algorithm is modelled
from the spec: it "recursively discards points whose perpendicular deviation
from the chord between their neighbors is below epsilon; keeps endpoints
always". -/

/-- Index and value of the first maximum of `f` over a list (`none` for the
empty list), mirroring a left-to-right strict-improvement argmax scan. -/
def argmaxIV {α K : Type} [LinearOrder K] (f : α → K) : List α → Option (ℕ × K)
  | [] => none
  | x :: xs =>
      match argmaxIV f xs with
      | none => some (0, f x)
      | some (j, v) => if f x < v then some (j + 1, v) else some (0, f x)

theorem argmaxIV_cons_ne_none {α K : Type} [LinearOrder K] (f : α → K)
    (x : α) (xs : List α) : argmaxIV f (x :: xs) ≠ none := by
  match hr : argmaxIV f xs with
  | none => simp [argmaxIV, hr]
  | some (j, v) =>
      simp only [argmaxIV, hr]
      by_cases hc : f x < v
      · rw [if_pos hc]; simp
      · rw [if_neg hc]; simp

theorem argmaxIV_lt_length {α K : Type} [LinearOrder K] (f : α → K) :
    ∀ (l : List α) (j : ℕ) (v : K), argmaxIV f l = some (j, v) → j < l.length := by
  intro l
  induction l with
  | nil => intro j v h; simp [argmaxIV] at h
  | cons x xs ih =>
      intro j v h
      match hr : argmaxIV f xs with
      | none =>
          simp only [argmaxIV, hr] at h
          simp at h
          simp only [List.length_cons]
          omega
      | some (j', v') =>
          simp only [argmaxIV, hr] at h
          by_cases hc : f x < v'
          · rw [if_pos hc] at h
            simp at h
            have := ih j' v' hr
            simp only [List.length_cons]
            omega
          · rw [if_neg hc] at h
            simp at h
            simp only [List.length_cons]
            omega

theorem argmaxIV_le {α K : Type} [LinearOrder K] (f : α → K) :
    ∀ (l : List α) (j : ℕ) (v : K), argmaxIV f l = some (j, v) →
      ∀ a ∈ l, f a ≤ v := by
  intro l
  induction l with
  | nil => intro j v h; simp [argmaxIV] at h
  | cons x xs ih =>
      intro j v h a ha
      match hr : argmaxIV f xs with
      | none =>
          simp only [argmaxIV, hr] at h
          simp at h
          rcases List.mem_cons.mp ha with hax | haxs
          · subst hax
            exact le_of_eq h.2
          · exfalso
            have hxs : xs = [] := by
              match hxs : xs, hr with
              | [], _ => rfl
              | y :: ys, hr => exact absurd hr (argmaxIV_cons_ne_none f y ys)
            subst hxs
            simp at haxs
      | some (j', v') =>
          simp only [argmaxIV, hr] at h
          by_cases hc : f x < v'
          · rw [if_pos hc] at h
            simp at h
            rcases List.mem_cons.mp ha with hax | haxs
            · subst hax
              rw [← h.2]
              exact le_of_lt hc
            · rw [← h.2]
              exact ih j' v' hr a haxs
          · rw [if_neg hc] at h
            simp at h
            rcases List.mem_cons.mp ha with hax | haxs
            · subst hax
              exact le_of_eq h.2
            · rw [← h.2]
              exact le_trans (ih j' v' hr a haxs) (not_lt.mp hc)

section FieldAlg

variable {K : Type} [LinearOrderedField K]

/-- Squared distance between two points. -/
def distSq (p q : K × K) : K := (p.1 - q.1) ^ 2 + (p.2 - q.2) ^ 2

/-- Squared cross product of `b - a` with `p - a`: the (squared, chord-scaled)
perpendicular deviation of `p` from the line through `a` and `b`. -/
def crossSq (a b p : K × K) : K :=
  ((b.1 - a.1) * (p.2 - a.2) - (b.2 - a.2) * (p.1 - a.1)) ^ 2

/-- Modelled from the spec: the deviation measure RDP maximises over interior
points.  For a degenerate chord (`a = b`) it is the squared distance to the
endpoint; otherwise the squared cross product. -/
def devMeasure (a b p : K × K) : K :=
  if a = b then distSq p a else crossSq a b p

/-- Modelled from the spec: the comparison bound against which `devMeasure`
is tested.  `devMeasure a b p < devThreshold a b eps` together with `0 < eps`
says exactly that the perpendicular deviation of `p` from the chord `a`–`b`
is strictly below `eps`. -/
def devThreshold (a b : K × K) (eps : K) : K :=
  if a = b then eps ^ 2 else eps ^ 2 * distSq a b

/-- Modelled from the spec: Ramer–Douglas–Peucker, as provided by the
external `rdp` library used in `process_data`.  Lists of fewer than three
points are returned unchanged ("keeps endpoints always"); otherwise, if
every interior point's perpendicular deviation from the chord between the
endpoints is below `eps`, the interior points are discarded, else the curve
is split at the (first) interior point of maximal deviation and both halves
are simplified recursively. -/
def rdp (eps : K) : List (K × K) → List (K × K)
  | [] => []
  | [p] => [p]
  | [p, q] => [p, q]
  | p :: q :: r :: rest =>
      match hm : argmaxIV (devMeasure p ((p :: q :: r :: rest).getLast (by simp)))
          ((q :: r :: rest).dropLast) with
      | none => [p, (p :: q :: r :: rest).getLast (by simp)]
      | some (j, v) =>
          if 0 < eps ∧ v < devThreshold p ((p :: q :: r :: rest).getLast (by simp)) eps then
            [p, (p :: q :: r :: rest).getLast (by simp)]
          else
            rdp eps ((p :: q :: r :: rest).take (j + 2)) ++
              (rdp eps ((p :: q :: r :: rest).drop (j + 1))).drop 1
termination_by l => l.length
decreasing_by
  · have hj := argmaxIV_lt_length _ _ _ _ hm
    simp only [List.length_dropLast, List.length_cons, List.length_take] at *
    omega
  · have hj := argmaxIV_lt_length _ _ _ _ hm
    simp only [List.length_dropLast, List.length_cons, List.length_drop] at *
    omega

theorem rdp_length_ge (eps : K) :
    ∀ l : List (K × K), 2 ≤ l.length → 2 ≤ (rdp eps l).length := by
  have main : ∀ (m : ℕ) (l : List (K × K)), l.length ≤ m → 2 ≤ l.length →
      2 ≤ (rdp eps l).length := by
    intro m
    induction m with
    | zero => intro l hl h2; omega
    | succ m ih =>
        intro l hl h2
        match l with
        | [p, q] => simp [rdp]
        | p :: q :: r :: rest =>
            simp only [rdp]
            split
            · simp
            · split
              · simp
              · rename_i j v heq hcond
                have hj := argmaxIV_lt_length _ _ _ _ heq
                simp only [List.length_dropLast, List.length_cons] at hj
                have hA : 2 ≤ (rdp eps ((p :: q :: r :: rest).take (j + 2))).length := by
                  apply ih
                  · simp only [List.length_take, List.length_cons]
                    simp only [List.length_cons] at hl
                    omega
                  · simp only [List.length_take, List.length_cons]
                    omega
                simp only [List.length_append]
                omega
  intro l
  exact main l.length l le_rfl

theorem argmaxIV_ne_none {α K2 : Type} [LinearOrder K2] (f : α → K2)
    (l : List α) (hne : l ≠ []) : argmaxIV f l ≠ none := by
  match l, hne with
  | x :: xs, _ => exact argmaxIV_cons_ne_none f x xs

theorem interior_ne_nil (q r : K × K) (rest : List (K × K)) :
    (q :: r :: rest).dropLast ≠ [] := by
  apply List.length_pos.mp
  simp

theorem head?_take {l : List α} {n : ℕ} (h : 1 ≤ n) :
    (l.take n).head? = l.head? := by
  match l, n, h with
  | [], _, _ => simp
  | x :: xs, k + 1, _ => simp

theorem getLast?_drop_of_lt {α : Type} {l : List α} {n : ℕ} (h : n < l.length) :
    (l.drop n).getLast? = l.getLast? := by
  rw [List.getLast?_eq_get?, List.getLast?_eq_get?, List.get?_drop]
  congr 1
  simp only [List.length_drop]
  omega

/-- RDP with a non-positive epsilon never discards anything: no deviation is
strictly below a non-positive bound, so the recursion splits all the way down
and reassembles the input unchanged. -/
theorem rdp_eps_nonpos (eps : K) (heps : eps ≤ 0) :
    ∀ l : List (K × K), rdp eps l = l := by
  have main : ∀ (m : ℕ) (l : List (K × K)), l.length ≤ m → rdp eps l = l := by
    intro m
    induction m with
    | zero =>
        intro l hl
        have : l = [] := List.length_eq_zero.mp (Nat.le_zero.mp hl)
        subst this
        simp [rdp]
    | succ m ih =>
        intro l hl
        match l with
        | [] => simp [rdp]
        | [p] => simp [rdp]
        | [p, q] => simp [rdp]
        | p :: q :: r :: rest =>
            simp only [rdp]
            split
            · rename_i heq
              exact absurd heq (argmaxIV_ne_none _ _ (interior_ne_nil q r rest))
            · rename_i j v heq
              rw [if_neg fun hc => absurd hc.1 (not_lt.mpr heps)]
              have hj := argmaxIV_lt_length _ _ _ _ heq
              simp only [List.length_dropLast, List.length_cons] at hj
              simp only [List.length_cons] at hl
              rw [ih ((p :: q :: r :: rest).take (j + 2))
                    (by simp only [List.length_take, List.length_cons]; omega),
                  ih ((p :: q :: r :: rest).drop (j + 1))
                    (by simp only [List.length_drop, List.length_cons]; omega)]
              rw [List.drop_drop]
              have harith : j + 1 + 1 = j + 2 := by omega
              rw [harith]
              exact List.take_append_drop _ _
  intro l
  exact main l.length l le_rfl

/-- RDP preserves the first point. -/
theorem rdp_head? (eps : K) :
    ∀ l : List (K × K), (rdp eps l).head? = l.head? := by
  have main : ∀ (m : ℕ) (l : List (K × K)), l.length ≤ m →
      (rdp eps l).head? = l.head? := by
    intro m
    induction m with
    | zero =>
        intro l hl
        have : l = [] := List.length_eq_zero.mp (Nat.le_zero.mp hl)
        subst this
        simp [rdp]
    | succ m ih =>
        intro l hl
        match l with
        | [] => simp [rdp]
        | [p] => simp [rdp]
        | [p, q] => simp [rdp]
        | p :: q :: r :: rest =>
            simp only [rdp]
            split
            · rename_i heq
              exact absurd heq (argmaxIV_ne_none _ _ (interior_ne_nil q r rest))
            · rename_i j v heq
              split
              · simp
              · have hj := argmaxIV_lt_length _ _ _ _ heq
                simp only [List.length_dropLast, List.length_cons] at hj
                simp only [List.length_cons] at hl
                have hA2 : 2 ≤ (rdp eps ((p :: q :: r :: rest).take (j + 2))).length :=
                  rdp_length_ge eps _
                    (by simp only [List.length_take, List.length_cons]; omega)
                have hAne : rdp eps ((p :: q :: r :: rest).take (j + 2)) ≠ [] := by
                  intro hc
                  rw [hc] at hA2
                  simp at hA2
                rw [List.head?_append_of_ne_nil _ hAne]
                rw [ih ((p :: q :: r :: rest).take (j + 2))
                      (by simp only [List.length_take, List.length_cons]; omega)]
                exact head?_take (by omega)
  intro l
  exact main l.length l le_rfl

/-- RDP preserves the last point. -/
theorem rdp_getLast? (eps : K) :
    ∀ l : List (K × K), (rdp eps l).getLast? = l.getLast? := by
  have main : ∀ (m : ℕ) (l : List (K × K)), l.length ≤ m →
      (rdp eps l).getLast? = l.getLast? := by
    intro m
    induction m with
    | zero =>
        intro l hl
        have : l = [] := List.length_eq_zero.mp (Nat.le_zero.mp hl)
        subst this
        simp [rdp]
    | succ m ih =>
        intro l hl
        match l with
        | [] => simp [rdp]
        | [p] => simp [rdp]
        | [p, q] => simp [rdp]
        | p :: q :: r :: rest =>
            simp only [rdp]
            split
            · rename_i heq
              exact absurd heq (argmaxIV_ne_none _ _ (interior_ne_nil q r rest))
            · rename_i j v heq
              have hj := argmaxIV_lt_length _ _ _ _ heq
              simp only [List.length_dropLast, List.length_cons] at hj
              simp only [List.length_cons] at hl
              split
              · rw [List.getLast?_eq_getLast (p :: q :: r :: rest) (by simp)]
                rfl
              · have hB2 : 2 ≤ (rdp eps ((p :: q :: r :: rest).drop (j + 1))).length :=
                  rdp_length_ge eps _
                    (by simp only [List.length_drop, List.length_cons]; omega)
                have hBd : (rdp eps ((p :: q :: r :: rest).drop (j + 1))).drop 1 ≠ [] := by
                  intro hc
                  have := congrArg List.length hc
                  simp only [List.length_drop, List.length_nil] at this
                  omega
                rw [List.getLast?_append_of_ne_nil _ hBd]
                rw [getLast?_drop_of_lt (by omega)]
                rw [ih ((p :: q :: r :: rest).drop (j + 1))
                      (by simp only [List.length_drop, List.length_cons]; omega)]
                exact getLast?_drop_of_lt (by simp only [List.length_cons]; omega)
  intro l
  exact main l.length l le_rfl

theorem devThreshold_mono (a b : K × K) {e1 e2 : K} (h0 : 0 < e1) (h : e1 ≤ e2) :
    devThreshold a b e1 ≤ devThreshold a b e2 := by
  unfold devThreshold
  have hsq : e1 ^ 2 ≤ e2 ^ 2 := pow_le_pow_left h0.le h 2
  split
  · exact hsq
  · have hd : 0 ≤ distSq a b := by unfold distSq; positivity
    exact mul_le_mul_of_nonneg_right hsq hd

/-- Increasing epsilon never increases RDP's output length: a larger epsilon
prunes the same epsilon-independent recursion tree at least as early. -/
theorem rdp_length_mono (e1 e2 : K) (h12 : e1 ≤ e2) :
    ∀ l : List (K × K), (rdp e2 l).length ≤ (rdp e1 l).length := by
  have main : ∀ (m : ℕ) (l : List (K × K)), l.length ≤ m →
      (rdp e2 l).length ≤ (rdp e1 l).length := by
    intro m
    induction m with
    | zero =>
        intro l hl
        have : l = [] := List.length_eq_zero.mp (Nat.le_zero.mp hl)
        subst this
        simp [rdp]
    | succ m ih =>
        intro l hl
        match l with
        | [] => simp [rdp]
        | [p] => simp [rdp]
        | [p, q] => simp [rdp]
        | p :: q :: r :: rest =>
            simp only [rdp]
            split
            · rename_i heq
              exact absurd heq (argmaxIV_ne_none _ _ (interior_ne_nil q r rest))
            · rename_i j v heq
              have hj := argmaxIV_lt_length _ _ _ _ heq
              simp only [List.length_dropLast, List.length_cons] at hj
              simp only [List.length_cons] at hl
              by_cases hc1 : 0 < e1 ∧
                  v < devThreshold p ((p :: q :: r :: rest).getLast (by simp)) e1
              · have hc2 : 0 < e2 ∧
                    v < devThreshold p ((p :: q :: r :: rest).getLast (by simp)) e2 :=
                  ⟨lt_of_lt_of_le hc1.1 h12,
                   lt_of_lt_of_le hc1.2 (devThreshold_mono _ _ hc1.1 h12)⟩
                rw [if_pos hc1, if_pos hc2]
              · rw [if_neg hc1]
                by_cases hc2 : 0 < e2 ∧
                    v < devThreshold p ((p :: q :: r :: rest).getLast (by simp)) e2
                · rw [if_pos hc2]
                  have hA := rdp_length_ge e1 ((p :: q :: r :: rest).take (j + 2))
                    (by simp only [List.length_take, List.length_cons]; omega)
                  simp only [List.length_append, List.length_cons, List.length_nil]
                  omega
                · rw [if_neg hc2]
                  have hA := ih ((p :: q :: r :: rest).take (j + 2))
                    (by simp only [List.length_take, List.length_cons]; omega)
                  have hB := ih ((p :: q :: r :: rest).drop (j + 1))
                    (by simp only [List.length_drop, List.length_cons]; omega)
                  have hB1 : 2 ≤ (rdp e1 ((p :: q :: r :: rest).drop (j + 1))).length :=
                    rdp_length_ge e1 _
                      (by simp only [List.length_drop, List.length_cons]; omega)
                  simp only [List.length_append, List.length_drop]
                  omega
  intro l
  exact main l.length l le_rfl

end FieldAlg

/-- CLAIM C6: RDP with epsilon 0 returns every input list unchanged (exact,
so in particular within floating tolerance), and the output length of RDP is
monotonically non-increasing in epsilon.  (The `rdp` library is external to
the repository; `rdp` here is modelled from the spec.) -/
theorem claim6_rdp_epsilon (l : List (ℚ × ℚ)) (e1 e2 : ℚ) (h : e1 ≤ e2) :
    rdp 0 l = l ∧ (rdp e2 l).length ≤ (rdp e1 l).length :=
  ⟨rdp_eps_nonpos 0 le_rfl l, rdp_length_mono e1 e2 h l⟩

theorem claim6_witness :
    rdp 0 [((0 : ℚ), (0 : ℚ)), (1, 5), (2, 0)] = [((0 : ℚ), (0 : ℚ)), (1, 5), (2, 0)] ∧
    (rdp (7 : ℚ) [((0 : ℚ), (0 : ℚ)), (1, 5), (2, 0)]).length ≤
      (rdp (3 : ℚ) [((0 : ℚ), (0 : ℚ)), (1, 5), (2, 0)]).length :=
  claim6_rdp_epsilon [((0 : ℚ), (0 : ℚ)), (1, 5), (2, 0)] 3 7 (by norm_num)

/-! ### Visvalingam–Whyatt (claim C9)

`visvalingam_whyatt_subsampling` in `syntheticdata.py` delegates to the
external `simplify_coords_vw`; the algorithm is modelled from the spec:
"iteratively removes the point contributing the smallest triangular area
formed with its neighbors, until remaining points' minimum triangle area
exceeds tolerance". -/

/-- Index and value of the first minimum of `f` over a list. -/
def argminIV {α K : Type} [LinearOrder K] (f : α → K) : List α → Option (ℕ × K)
  | [] => none
  | x :: xs =>
      match argminIV f xs with
      | none => some (0, f x)
      | some (j, v) => if v < f x then some (j + 1, v) else some (0, f x)

theorem argminIV_lt_length {α K : Type} [LinearOrder K] (f : α → K) :
    ∀ (l : List α) (j : ℕ) (v : K), argminIV f l = some (j, v) → j < l.length := by
  intro l
  induction l with
  | nil => intro j v h; simp [argminIV] at h
  | cons x xs ih =>
      intro j v h
      match hr : argminIV f xs with
      | none =>
          simp only [argminIV, hr] at h
          simp at h
          simp only [List.length_cons]
          omega
      | some (j', v') =>
          simp only [argminIV, hr] at h
          by_cases hc : v' < f x
          · rw [if_pos hc] at h
            simp at h
            have := ih j' v' hr
            simp only [List.length_cons]
            omega
          · rw [if_neg hc] at h
            simp at h
            simp only [List.length_cons]
            omega

section FieldVW

variable {K : Type} [LinearOrderedField K]

/-- Twice the area of the triangle with vertices `a`, `b`, `c`. -/
def triArea2 (a b c : K × K) : K :=
  |(b.1 - a.1) * (c.2 - a.2) - (c.1 - a.1) * (b.2 - a.2)|

/-- The triangle areas of every interior point with its two neighbours. -/
def triAreas : List (K × K) → List K
  | a :: b :: c :: rest => triArea2 a b c :: triAreas (b :: c :: rest)
  | _ => []

theorem triAreas_length : ∀ l : List (K × K), (triAreas l).length = l.length - 2
  | [] => by simp [triAreas]
  | [_] => by simp [triAreas]
  | [_, _] => by simp [triAreas]
  | a :: b :: c :: rest => by
      simp only [triAreas, List.length_cons, triAreas_length (b :: c :: rest)]
      omega

/-- Modelled from the spec: Visvalingam–Whyatt as provided by the external
`simplify_coords_vw` used by `visvalingam_whyatt_subsampling`.  Inputs of
fewer than three points have no interior point and are returned unchanged;
otherwise, while the smallest interior triangle area does not exceed the
tolerance, the corresponding point is removed. -/
def vw (tol : K) : List (K × K) → List (K × K)
  | [] => []
  | [p] => [p]
  | [p, q] => [p, q]
  | p :: q :: r :: rest =>
      match hm : argminIV (fun a => a) (triAreas (p :: q :: r :: rest)) with
      | none => p :: q :: r :: rest
      | some (j, v) =>
          if v ≤ tol then vw tol ((p :: q :: r :: rest).eraseIdx (j + 1))
          else p :: q :: r :: rest
termination_by l => l.length
decreasing_by
  have hj := argminIV_lt_length _ _ _ _ hm
  rw [triAreas_length] at hj
  have hlt : j + 1 < (p :: q :: r :: rest).length := by
    simp only [List.length_cons] at *
    omega
  rw [List.length_eraseIdx, if_pos hlt]
  simp only [List.length_cons] at *
  omega

end FieldVW

/-! ### Claim C9: zero- and one-point inputs are returned unchanged -/

/-- CLAIM C9: every simplification algorithm returns an input of zero points
or exactly one point unchanged (no crash, no alteration), at any valid
level.  For `random_subsampling` the draw `pick` is any valid draw of
`random.sample` (at least one drawn index, all indices in range); for
`lowess_subsampling` the external smoother is assumed to return a
one-element series unchanged (the y-value is smoothed against itself). -/
theorem claim9_tiny_inputs (p : ℚ × ℚ) (step w n_out : ℤ) (g eps tol frac : ℚ)
    (pick : List ℕ) (smoother : ℚ → List ℚ → List ℚ)
    (hstep : 0 < step) (hw : 0 < w) (hn : 1 ≤ n_out) (hg : g ≠ 0)
    (hpick : 1 ≤ pick.length) (hpick0 : ∀ i ∈ pick, i < 1)
    (hsm : smoother frac [p.2] = [p.2]) :
    uniform_subsampling ([] : List (ℚ × ℚ)) step = Except.ok [] ∧
    uniform_subsampling [p] step = Except.ok [p] ∧
    random_subsampling pick ([] : List (ℚ × ℚ)) n_out = Except.ok [] ∧
    random_subsampling pick [p] n_out = Except.ok [p] ∧
    sliding_window_subsampling ([] : List (ℚ × ℚ)) w = Except.ok [] ∧
    sliding_window_subsampling [p] w = Except.ok [p] ∧
    grid_subsampling ([] : List (ℚ × ℚ)) g = Except.ok [] ∧
    grid_subsampling [p] g = Except.ok [p] ∧
    lowess_subsampling smoother [] frac = [] ∧
    lowess_subsampling smoother [p] frac = [p] ∧
    rdp eps ([] : List (ℚ × ℚ)) = [] ∧
    rdp eps [p] = [p] ∧
    vw tol ([] : List (ℚ × ℚ)) = [] ∧
    vw tol [p] = [p] := by
  refine ⟨?_, ?_, ?_, ?_, ?_, ?_, ?_, ?_, ?_, ?_, ?_, ?_, ?_, ?_⟩
  · unfold uniform_subsampling
    rw [if_neg (by omega), if_pos hstep, everyNth_nil]
  · unfold uniform_subsampling
    rw [if_neg (by omega), if_pos hstep, everyNth_cons, List.drop_nil, everyNth_nil]
  · unfold random_subsampling
    rw [if_neg (by omega)]
    simp
  · unfold random_subsampling
    rw [if_neg (by omega)]
    match pick, hpick, hpick0 with
    | i :: pickrest, _, hpick0 =>
        have hi : i < 1 := hpick0 i (List.mem_cons_self i pickrest)
        have hi0 : i = 0 := by omega
        subst hi0
        have hk : min n_out (([p] : List (ℚ × ℚ)).length : ℤ) = 1 := by
          simp only [List.length_cons, List.length_nil]
          omega
        rw [hk]
        simp
  · unfold sliding_window_subsampling
    rw [if_neg (by omega), if_pos hw, slidingPos_nil]
  · unfold sliding_window_subsampling
    rw [if_neg (by omega), if_pos hw, slidingPos_cons]
    simp [slidingPos_nil]
  · rfl
  · unfold grid_subsampling
    rw [if_neg hg]
    simp [gridFold]
  · simp [lowess_subsampling]
  · unfold lowess_subsampling
    simp only [List.map_cons, List.map_nil, hsm]
    simp
  · simp [rdp]
  · simp [rdp]
  · rw [vw.eq_def]
  · rw [vw.eq_def]

theorem claim9_witness :
    uniform_subsampling ([] : List (ℚ × ℚ)) 1 = Except.ok [] ∧
    uniform_subsampling [((2 : ℚ), (3 : ℚ))] 1 = Except.ok [((2 : ℚ), (3 : ℚ))] ∧
    random_subsampling [0] ([] : List (ℚ × ℚ)) 1 = Except.ok [] ∧
    random_subsampling [0] [((2 : ℚ), (3 : ℚ))] 1 = Except.ok [((2 : ℚ), (3 : ℚ))] ∧
    sliding_window_subsampling ([] : List (ℚ × ℚ)) 1 = Except.ok [] ∧
    sliding_window_subsampling [((2 : ℚ), (3 : ℚ))] 1 = Except.ok [((2 : ℚ), (3 : ℚ))] ∧
    grid_subsampling ([] : List (ℚ × ℚ)) 1 = Except.ok [] ∧
    grid_subsampling [((2 : ℚ), (3 : ℚ))] 1 = Except.ok [((2 : ℚ), (3 : ℚ))] ∧
    lowess_subsampling (fun (_ : ℚ) (ys : List ℚ) => ys) ([] : List (ℚ × ℚ)) 1 = [] ∧
    lowess_subsampling (fun (_ : ℚ) (ys : List ℚ) => ys) [((2 : ℚ), (3 : ℚ))] 1 =
      [((2 : ℚ), (3 : ℚ))] ∧
    rdp 1 ([] : List (ℚ × ℚ)) = [] ∧
    rdp 1 [((2 : ℚ), (3 : ℚ))] = [((2 : ℚ), (3 : ℚ))] ∧
    vw 1 ([] : List (ℚ × ℚ)) = [] ∧
    vw 1 [((2 : ℚ), (3 : ℚ))] = [((2 : ℚ), (3 : ℚ))] :=
  claim9_tiny_inputs ((2 : ℚ), (3 : ℚ)) 1 1 1 1 1 1 1 [0]
    (fun (_ : ℚ) (ys : List ℚ) => ys)
    (by decide) (by decide) (by decide) (by norm_num) (by decide)
    (by decide) rfl

/-! ### The 100-point zero-noise sine trajectory (claim C4)

`create_flight_paths` with zero noise produces
`x = np.linspace(-3000000, 3000000, num_points)` and
`y = np.sin(x / 100000) * 3000000`.  With `num_points = 100` the `i`-th
easting is `-3000000 + 6000000·i/99`.  Real-number semantics stand in for
NumPy floats. -/

/-- The `i`-th point of the 100-point zero-noise sine trajectory. -/
noncomputable def sineTrajPoint (i : ℕ) : ℝ × ℝ :=
  (-3000000 + 6000000 * i / 99,
   Real.sin ((-3000000 + 6000000 * i / 99) / 100000) * 3000000)

/-- The 100-point zero-noise sine trajectory. -/
noncomputable def sineTraj : List (ℝ × ℝ) := (List.range 100).map sineTrajPoint

theorem sineTraj_length : sineTraj.length = 100 := by
  simp [sineTraj]

theorem sineTraj_ne_nil : sineTraj ≠ [] := by
  intro h
  have := congrArg List.length h
  rw [sineTraj_length] at this
  simp at this

theorem sineTraj_get? {i : ℕ} (h : i < 100) :
    sineTraj.get? i = some (sineTrajPoint i) := by
  rw [sineTraj, List.get?_map, List.get?_range h]
  rfl

theorem sineTraj_get?_none {i : ℕ} (h : 100 ≤ i) : sineTraj.get? i = none := by
  rw [List.get?_eq_none, sineTraj_length]
  exact h

theorem sineTraj_getLast? : sineTraj.getLast? = sineTraj.get? 99 := by
  rw [List.getLast?_eq_get?, sineTraj_length]

theorem sineTrajPoint_fst_lt {i j : ℕ} (h : i < j) :
    (sineTrajPoint i).1 < (sineTrajPoint j).1 := by
  show (-3000000 + 6000000 * (i : ℝ) / 99 : ℝ) < -3000000 + 6000000 * (j : ℝ) / 99
  have hij : (i : ℝ) < (j : ℝ) := by exact_mod_cast h
  gcongr

theorem sineTrajPoint_ne {i j : ℕ} (h : i ≠ j) :
    sineTrajPoint i ≠ sineTrajPoint j := by
  intro hc
  rcases Nat.lt_or_ge i j with hlt | hge
  · exact absurd (congrArg Prod.fst hc) (ne_of_lt (sineTrajPoint_fst_lt hlt))
  · have hlt : j < i := by omega
    exact absurd (congrArg Prod.fst hc) (ne_of_gt (sineTrajPoint_fst_lt hlt))

/-- Rounding is strictly monotone across a gap of at least one. -/
theorem round_lt_round_real {a b : ℝ} (h : a + 1 ≤ b) : round a < round b := by
  rw [round_eq, round_eq]
  have h1 : a + 1 / 2 + 1 ≤ b + 1 / 2 := by linarith
  have h2 : ⌊a + 1 / 2⌋ + 1 = ⌊a + 1 / 2 + 1⌋ := (Int.floor_add_one _).symm
  have h3 : ⌊a + 1 / 2 + 1⌋ ≤ ⌊b + 1 / 2⌋ := Int.floor_le_floor h1
  omega

/-- Consecutive sine-trajectory eastings are more than one grid cell of size
10 apart, so their grid keys are strictly increasing. -/
theorem sineTraj_round_lt {i j : ℕ} (h : i < j) :
    round ((sineTrajPoint i).1 / 10) < round ((sineTrajPoint j).1 / 10) := by
  apply round_lt_round_real
  show (-3000000 + 6000000 * (i : ℝ) / 99) / 10 + 1 ≤
    (-3000000 + 6000000 * (j : ℝ) / 99) / 10
  have hij : (i : ℝ) + 1 ≤ (j : ℝ) := by exact_mod_cast h
  nlinarith

theorem sineTraj_gridKey_ne {i j : ℕ} (h : i ≠ j) :
    gridKey (10 : ℝ) (sineTrajPoint i) ≠ gridKey (10 : ℝ) (sineTrajPoint j) := by
  intro hc
  have hfst := congrArg Prod.fst hc
  simp only [gridKey] at hfst
  have h10 : (10 : ℝ) ≠ 0 := by norm_num
  have hr : ((round ((sineTrajPoint i).1 / 10) : ℤ) : ℝ) =
      ((round ((sineTrajPoint j).1 / 10) : ℤ) : ℝ) := mul_right_cancel₀ h10 hfst
  have hrz : round ((sineTrajPoint i).1 / 10) = round ((sineTrajPoint j).1 / 10) := by
    exact_mod_cast hr
  rcases Nat.lt_or_ge i j with hlt | hge
  · exact absurd hrz (ne_of_lt (sineTraj_round_lt hlt))
  · have hlt : j < i := by omega
    exact absurd hrz (ne_of_gt (sineTraj_round_lt hlt))

/-- When every coordinate has a fresh grid key — distinct from all keys in
the accumulator and pairwise distinct along the list — the dictionary loop
keeps every point, in order. -/
theorem gridFold_of_fresh {K : Type} [LinearOrderedField K] [FloorRing K]
    (g : K) : ∀ (l : List (K × K)) (acc : List ((K × K) × (K × K))),
      (∀ c ∈ l, ∀ kv ∈ acc, kv.1 ≠ gridKey g c) →
      (l.map (gridKey g)).Pairwise (· ≠ ·) →
      gridFold g l acc = acc ++ l.map (fun c => (gridKey g c, c)) := by
  intro l
  induction l with
  | nil => intro acc _ _; simp [gridFold]
  | cons c cs ih =>
      intro acc hfresh hpw
      simp only [List.map_cons, List.pairwise_cons] at hpw
      have hmem : ¬ ((acc.any fun kv => decide (kv.1 = gridKey g c)) = true) := by
        rw [List.any_eq_true]
        rintro ⟨kv, hkv, hdec⟩
        exact hfresh c (List.mem_cons_self c cs) kv hkv (of_decide_eq_true hdec)
      have hfresh2 : ∀ c' ∈ cs, ∀ kv ∈ acc ++ [(gridKey g c, c)],
          kv.1 ≠ gridKey g c' := by
        intro c' hc' kv hkv
        rcases List.mem_append.mp hkv with hacc | hsing
        · exact hfresh c' (List.mem_cons_of_mem c hc') kv hacc
        · have heq : kv = (gridKey g c, c) := by simpa using hsing
          subst heq
          exact hpw.1 (gridKey g c') (List.mem_map_of_mem _ hc')
      rw [gridFold, if_neg hmem, ih (acc ++ [(gridKey g c, c)]) hfresh2 hpw.2]
      simp

theorem sineTraj_keys_pairwise :
    (sineTraj.map (gridKey (10 : ℝ))).Pairwise (· ≠ ·) := by
  have hmap : sineTraj.map (gridKey (10 : ℝ)) =
      (List.range 100).map (fun i => gridKey (10 : ℝ) (sineTrajPoint i)) := by
    rw [sineTraj, List.map_map]
    rfl
  rw [hmap]
  exact List.Pairwise.map _
    (fun a b hab => sineTraj_gridKey_ne (Nat.ne_of_lt hab))
    (List.pairwise_lt_range 100)

/-- Grid subsampling at cell size 10 keeps every point of the zero-noise
sine trajectory: consecutive eastings are ≈60606 apart, so every point lands
in its own cell. -/
theorem grid_sineTraj : grid_subsampling sineTraj (10 : ℝ) = Except.ok sineTraj := by
  rw [grid_subsampling.eq_def]
  split
  · rename_i heq
    exact absurd heq sineTraj_ne_nil
  · rw [if_neg (by norm_num)]
    rw [gridFold_of_fresh 10 sineTraj []
          (by intro c _ kv hkv; simp at hkv) sineTraj_keys_pairwise]
    simp [List.map_map]
    rfl

theorem everyNth_sineTraj_get?9 :
    (everyNth sineTraj 10).get? 9 = some (sineTrajPoint 90) := by
  rw [everyNth_get? 10 (by norm_num) sineTraj 9]
  exact sineTraj_get? (by norm_num)

theorem everyNth_sineTraj_length : (everyNth sineTraj 10).length = 10 := by
  have h9 := everyNth_sineTraj_get?9
  have h10 : (everyNth sineTraj 10).get? 10 = none := by
    rw [everyNth_get? 10 (by norm_num) sineTraj 10]
    exact sineTraj_get?_none (by norm_num)
  have hle : (everyNth sineTraj 10).length ≤ 10 := List.get?_eq_none.mp h10
  have hgt : 9 < (everyNth sineTraj 10).length := by
    by_contra hc
    push_neg at hc
    rw [List.get?_eq_none.mpr hc] at h9
    simp at h9
  omega

theorem everyNth_sineTraj_getLast? :
    (everyNth sineTraj 10).getLast? = some (sineTrajPoint 90) := by
  rw [List.getLast?_eq_get?, everyNth_sineTraj_length]
  exact everyNth_sineTraj_get?9

/-- CLAIM C4 counterexample: on the 100-point zero-noise sine trajectory at
level 10, uniform-stride subsampling does not return the input's last point
as its last point: its last retained point is the input point at index 90
(easting ≈ 2454545), not the one at index 99 (easting 3000000). -/
theorem claim4_counterexample :
    uniform_subsampling sineTraj (10 : ℤ) = Except.ok (everyNth sineTraj 10) ∧
    (everyNth sineTraj 10).getLast? ≠ sineTraj.getLast? := by
  constructor
  · unfold uniform_subsampling
    norm_num
    rfl
  · rw [everyNth_sineTraj_getLast?, sineTraj_getLast?, sineTraj_get? (by norm_num)]
    intro hc
    have := Option.some.inj hc
    exact absurd this (sineTrajPoint_ne (by norm_num))

theorem slidingPos_sineTraj_length : (slidingPos 10 sineTraj).length = 10 := by
  rw [slidingPos_length 10 (by norm_num) sineTraj, sineTraj_length]

theorem slidingPos_sineTraj_get?0 :
    (slidingPos 10 sineTraj).get? 0 = some (sineTrajPoint 5) := by
  rw [slidingPos_get? 10 (by norm_num) sineTraj 0]
  simp only [Nat.zero_mul, List.drop_zero]
  have hlen : (sineTraj.take 10).length = 10 := by
    rw [List.length_take, sineTraj_length]
    decide
  rw [hlen]
  rw [List.get?_take (by norm_num)]
  exact sineTraj_get? (by norm_num)

theorem slidingPos_sineTraj_get?9 :
    (slidingPos 10 sineTraj).get? 9 = some (sineTrajPoint 95) := by
  rw [slidingPos_get? 10 (by norm_num) sineTraj 9]
  have hlen : ((sineTraj.drop (9 * 10)).take 10).length = 10 := by
    rw [List.length_take, List.length_drop, sineTraj_length]
    decide
  rw [hlen]
  rw [List.get?_take (by norm_num), List.get?_drop]
  exact sineTraj_get? (by norm_num)

/-- CLAIM C4 (amended): on the 100-point zero-noise sine trajectory at level
10, all four algorithms return a non-empty sequence; RDP and grid-snapping
preserve both endpoints (grid in fact returns the trajectory unchanged), but
uniform-stride preserves only the first point — its last output point is the
input point at index 90 — and sliding-window preserves neither: its first
and last output points are the input points at indices 5 and 95. -/
theorem claim4_amended :
    (uniform_subsampling sineTraj (10 : ℤ) = Except.ok (everyNth sineTraj 10) ∧
      everyNth sineTraj 10 ≠ [] ∧
      (everyNth sineTraj 10).head? = sineTraj.head? ∧
      (everyNth sineTraj 10).getLast? = sineTraj.get? 90) ∧
    (sliding_window_subsampling sineTraj (10 : ℤ) =
        Except.ok (slidingPos 10 sineTraj) ∧
      slidingPos 10 sineTraj ≠ [] ∧
      (slidingPos 10 sineTraj).head? = sineTraj.get? 5 ∧
      (slidingPos 10 sineTraj).getLast? = sineTraj.get? 95) ∧
    (rdp (10 : ℝ) sineTraj ≠ [] ∧
      (rdp (10 : ℝ) sineTraj).head? = sineTraj.head? ∧
      (rdp (10 : ℝ) sineTraj).getLast? = sineTraj.getLast?) ∧
    (grid_subsampling sineTraj (10 : ℝ) = Except.ok sineTraj ∧
      sineTraj ≠ []) := by
  refine ⟨⟨?_, ?_, ?_, ?_⟩, ⟨?_, ?_, ?_, ?_⟩, ⟨?_, ?_, ?_⟩, ?_, ?_⟩
  · unfold uniform_subsampling
    norm_num
    rfl
  · intro h
    have := congrArg List.length h
    rw [everyNth_sineTraj_length] at this
    simp at this
  · rw [← List.get?_zero, ← List.get?_zero]
    rw [everyNth_get? 10 (by norm_num) sineTraj 0]
  · rw [everyNth_sineTraj_getLast?, sineTraj_get? (by norm_num)]
  · unfold sliding_window_subsampling
    norm_num
    rfl
  · intro h
    have := congrArg List.length h
    rw [slidingPos_sineTraj_length] at this
    simp at this
  · rw [← List.get?_zero, slidingPos_sineTraj_get?0, sineTraj_get? (by norm_num)]
  · rw [List.getLast?_eq_get?, slidingPos_sineTraj_length]
    rw [slidingPos_sineTraj_get?9, sineTraj_get? (by norm_num)]
  · intro h
    have h2 : 2 ≤ (rdp (10 : ℝ) sineTraj).length :=
      rdp_length_ge 10 sineTraj (by rw [sineTraj_length]; norm_num)
    rw [h] at h2
    simp at h2
  · exact rdp_head? 10 sineTraj
  · exact rdp_getLast? 10 sineTraj
  · exact grid_sineTraj
  · exact sineTraj_ne_nil

end SyntheticData
